import Mathlib

/-!
Verification of the core estimation engine of OnlineMEME: the indicator-matrix
encoding of nucleotide sequences, the mixture-component likelihoods, the
responsibility (posterior) computation, the batch M-step, and the single-pass
online EM update.  Real arithmetic is modelled over ℚ, matrices of shape W×4
as functions `Fin W → Fin 4 → ℚ`, and boolean indicator matrices as
`Fin W → Fin 4 → Bool`.
-/

namespace OnlineMEME

/-- The nucleotide alphabet in the order A, C, G, T (the array `d` built inside
`sequenceToI`). -/
def alphabet : Fin 4 → Char
  | 0 => 'A'
  | 1 => 'C'
  | 2 => 'G'
  | 3 => 'T'

/-- Spec-side description of the encoding: the column index a character maps to,
if any.  Characters outside the four recognized letters map to `none`. -/
def letterIndex (c : Char) : Option (Fin 4) :=
  if c = 'A' then some 0
  else if c = 'C' then some 1
  else if c = 'G' then some 2
  else if c = 'T' then some 3
  else none

/-- `sequenceToI(X)`: a string of length W becomes a W×4 boolean indicator
matrix whose entry (i, j) is true iff the character at position i equals the
j-th alphabet letter (`l[:,newaxis] == d`). -/
def sequenceToI {W : ℕ} (X : Fin W → Char) : Fin W → Fin 4 → Bool :=
  fun i j => X i == alphabet j

/-- Numpy boolean-mask selection followed by `.prod()`: the product of the
matrix entries at the positions where the mask is true.  Positions where the
mask is false are not selected at all, so they contribute an empty factor 1
(they do not force the product to 0). -/
def maskProd {W : ℕ} (I : Fin W → Fin 4 → Bool) (theta : Fin W → Fin 4 → ℚ) : ℚ :=
  ∏ i, ∏ j, if I i j then theta i j else 1

/-- `pI_motif(I, theta_motif)`: P(X | theta_motif), computed as
`theta_motif[I].prod()`. -/
def pI_motif {W : ℕ} (I : Fin W → Fin 4 → Bool)
    (theta_motif : Fin W → Fin 4 → ℚ) : ℚ :=
  maskProd I theta_motif

/-- `pI_background(I, theta_background_matrix)`: P(X | theta_background),
computed as `theta_background_matrix[I].prod()`. -/
def pI_background {W : ℕ} (I : Fin W → Fin 4 → Bool)
    (theta_background_matrix : Fin W → Fin 4 → ℚ) : ℚ :=
  maskProd I theta_background_matrix

/-- `Z0_I(I, theta_motif, theta_background_matrix, lambda_motif)`: the expected
Z value (motif responsibility) of the sequence represented by indicator matrix
I, via Bayes rule for the two-component mixture:
`a = pI_motif*lambda`, `b = pI_background*(1-lambda)`, `Z0 = a/(a+b)`. -/
def Z0_I {W : ℕ} (I : Fin W → Fin 4 → Bool)
    (theta_motif theta_background_matrix : Fin W → Fin 4 → ℚ)
    (lambda_motif : ℚ) : ℚ :=
  let a := pI_motif I theta_motif * lambda_motif
  let b := pI_background I theta_background_matrix * (1 - lambda_motif)
  a / (a + b)

/-- `concatenate((array([c0]), c))`: the background count vector c0 stacked as
row 0 above the W motif count rows of c. -/
def augmented {W : ℕ} (c0 : Fin 4 → ℚ) (c : Fin W → Fin 4 → ℚ) :
    Fin (W + 1) → Fin 4 → ℚ :=
  Fin.cons c0 c

/-- `M(Z, n, c0, c)`: the batch M-step.  `Z_total` is accumulated by the nested
loops over the Z list; the row normalization is the literal matrix product
`dot(diag(1/c.sum(axis=1)), c)` of a diagonal matrix of reciprocal row sums
with the augmented count matrix.  Returns
(lambda_motif, theta_motif, theta_background_matrix), where theta_motif is
rows 1..W of the normalized matrix (`f[1:]`) and the background matrix is row
0 repeated `theta_motif.shape[0]` times. -/
def M {W : ℕ} (Z : List (List ℚ)) (n : ℕ) (c0 : Fin 4 → ℚ)
    (c : Fin W → Fin 4 → ℚ) :
    ℚ × (Fin W → Fin 4 → ℚ) × (Fin W → Fin 4 → ℚ) :=
  let Z_total := Z.foldl (fun acc Zi => Zi.foldl (fun s z => s + z) acc) 0
  let lambda_motif := Z_total / (n : ℚ)
  let caug := augmented c0 c
  let f : Fin (W + 1) → Fin 4 → ℚ :=
    fun i j => ∑ k, (if i = k then 1 / (∑ m, caug k m) else 0) * caug k j
  let theta_motif : Fin W → Fin 4 → ℚ := fun i j => f i.succ j
  let theta_background_matrix : Fin W → Fin 4 → ℚ := fun _ j => f 0 j
  (lambda_motif, theta_motif, theta_background_matrix)

/-- Multiplying a rational by a boolean, as numpy does in `ds1_1*I` (true is 1,
false is 0). -/
def indicatorRat (b : Bool) : ℚ := if b then 1 else 0

/-- The state carried across the loop iterations of `Online_EM`: the three
usable model parameters, the three sufficient-statistic accumulators and the
sequence counter n. -/
structure EMState (W : ℕ) where
  theta_motif : Fin W → Fin 4 → ℚ
  theta_background_matrix : Fin W → Fin 4 → ℚ
  lambda_motif : ℚ
  s1_1 : ℚ
  s1_2 : Fin W → Fin 4 → ℚ
  s2_2 : Fin W → Fin 4 → ℚ
  n : ℕ

/-- One iteration of the `for y in Y` loop of `Online_EM`: encode the sequence,
compute the instantaneous responsibility from the current usable parameters
(`Z0_I(I, theta_motif, theta_background_matrix, lambda_motif)`), step each
accumulator toward its one-sequence estimate with step size 0.85, then
re-derive the usable parameters (lambda from s1_1, the motif PWM from s1_2
directly, and the background matrix from the normalized column sums of s2_2
repeated W times), and advance the counter. -/
def Online_EM_step {W : ℕ} (st : EMState W) (y : Fin W → Char) : EMState W :=
  let I := sequenceToI y
  let step : ℚ := 17 / 20
  let ds1_1 := Z0_I I st.theta_motif st.theta_background_matrix st.lambda_motif
  let ds1_2 : Fin W → Fin 4 → ℚ := fun i j => ds1_1 * indicatorRat (I i j)
  let ds2_2 : Fin W → Fin 4 → ℚ := fun i j => (1 - ds1_1) * indicatorRat (I i j)
  let s1_1 := st.s1_1 + step * (ds1_1 - st.s1_1)
  let s1_2 : Fin W → Fin 4 → ℚ :=
    fun i j => st.s1_2 i j + step * (ds1_2 i j - st.s1_2 i j)
  let s2_2 : Fin W → Fin 4 → ℚ :=
    fun i j => st.s2_2 i j + step * (ds2_2 i j - st.s2_2 i j)
  let theta_background : Fin 4 → ℚ := fun j => ∑ i, s2_2 i j
  let theta_background_matrix : Fin W → Fin 4 → ℚ :=
    fun _ j => theta_background j / (∑ k, theta_background k)
  { theta_motif := s1_2
    theta_background_matrix := theta_background_matrix
    lambda_motif := s1_1
    s1_1 := s1_1
    s1_2 := s1_2
    s2_2 := s2_2
    n := st.n + 1 }

/-- The initial state of `Online_EM`: the accumulators start at the initial
parameter guesses (`s1_1 = lambda_motif`, `s1_2 = theta_motif`,
`s2_2 = theta_background_matrix`) and the counter at 1. -/
def Online_EM_init {W : ℕ} (theta_motif theta_background_matrix : Fin W → Fin 4 → ℚ)
    (lambda_motif : ℚ) : EMState W :=
  { theta_motif := theta_motif
    theta_background_matrix := theta_background_matrix
    lambda_motif := lambda_motif
    s1_1 := lambda_motif
    s1_2 := theta_motif
    s2_2 := theta_background_matrix
    n := 1 }

/-- `Online_EM(Y, theta_motif, theta_background_matrix, lambda_motif)`: one
pass over the sequence collection Y, returning
(theta_motif, theta_background_matrix, lambda_motif). -/
def Online_EM {W : ℕ} (Y : List (Fin W → Char))
    (theta_motif theta_background_matrix : Fin W → Fin 4 → ℚ)
    (lambda_motif : ℚ) :
    (Fin W → Fin 4 → ℚ) × (Fin W → Fin 4 → ℚ) × ℚ :=
  let final := Y.foldl Online_EM_step
    (Online_EM_init theta_motif theta_background_matrix lambda_motif)
  (final.theta_motif, final.theta_background_matrix, final.lambda_motif)

/-- Modelled from the claim wording, for comparison with `Online_EM_step`: the
loop body with the instantaneous responsibility computed from the accumulators
s1_1, s1_2, s2_2 themselves (`Z0_I(I, s1_2, s2_2, s1_1)`) rather than from the
usable parameters re-derived at the end of the previous iteration.  Everything
else is identical. -/
def Online_EM_step_claimed {W : ℕ} (st : EMState W) (y : Fin W → Char) : EMState W :=
  let I := sequenceToI y
  let step : ℚ := 17 / 20
  let ds1_1 := Z0_I I st.s1_2 st.s2_2 st.s1_1
  let ds1_2 : Fin W → Fin 4 → ℚ := fun i j => ds1_1 * indicatorRat (I i j)
  let ds2_2 : Fin W → Fin 4 → ℚ := fun i j => (1 - ds1_1) * indicatorRat (I i j)
  let s1_1 := st.s1_1 + step * (ds1_1 - st.s1_1)
  let s1_2 : Fin W → Fin 4 → ℚ :=
    fun i j => st.s1_2 i j + step * (ds1_2 i j - st.s1_2 i j)
  let s2_2 : Fin W → Fin 4 → ℚ :=
    fun i j => st.s2_2 i j + step * (ds2_2 i j - st.s2_2 i j)
  let theta_background : Fin 4 → ℚ := fun j => ∑ i, s2_2 i j
  let theta_background_matrix : Fin W → Fin 4 → ℚ :=
    fun _ j => theta_background j / (∑ k, theta_background k)
  { theta_motif := s1_2
    theta_background_matrix := theta_background_matrix
    lambda_motif := s1_1
    s1_1 := s1_1
    s1_2 := s1_2
    s2_2 := s2_2
    n := st.n + 1 }

/-- `Online_EM` as the claim wording reads it, built on `Online_EM_step_claimed`. -/
def Online_EM_claimed {W : ℕ} (Y : List (Fin W → Char))
    (theta_motif theta_background_matrix : Fin W → Fin 4 → ℚ)
    (lambda_motif : ℚ) :
    (Fin W → Fin 4 → ℚ) × (Fin W → Fin 4 → ℚ) × ℚ :=
  let final := Y.foldl Online_EM_step_claimed
    (Online_EM_init theta_motif theta_background_matrix lambda_motif)
  (final.theta_motif, final.theta_background_matrix, final.lambda_motif)

/-- A one-position test sequence consisting of the letter A. -/
def seqA : Fin 1 → Char := fun _ => 'A'

/-- A one-position test sequence consisting of the unrecognized letter Z. -/
def seqZ : Fin 1 → Char := fun _ => 'Z'

/-- A concrete 1×4 motif PWM guess: A and C equally likely, G and T impossible. -/
def tm0 : Fin 1 → Fin 4 → ℚ := fun _ => ![1/2, 1/2, 0, 0]

/-- A concrete 1×4 uniform background matrix. -/
def bg0 : Fin 1 → Fin 4 → ℚ := fun _ => ![1/4, 1/4, 1/4, 1/4]

/-- A degenerate 1×4 PWM assigning probability 0 to the letter A. -/
def tmDeg : Fin 1 → Fin 4 → ℚ := fun _ => ![0, 1, 0, 0]

/-- The concrete starting state used by the witnesses: the motif guess `tm0`,
the uniform background `bg0` and mixture weight 1/2. -/
def st0 : EMState 1 := Online_EM_init tm0 bg0 (1/2)

end OnlineMEME

namespace OnlineMEME

/-! ## Helper lemmas -/

/-- Each recognized letter encodes to its own column index. -/
theorem letterIndex_alphabet (j : Fin 4) : letterIndex (alphabet j) = some j := by
  fin_cases j <;> rfl

/-- Entry (i, j) of the indicator matrix is set exactly when character i is the
j-th alphabet letter. -/
theorem sequenceToI_eq_letterIndex {W : ℕ} (X : Fin W → Char) (i : Fin W) (j : Fin 4) :
    sequenceToI X i j = true ↔ letterIndex (X i) = some j := by
  unfold sequenceToI letterIndex
  split_ifs with h1 h2 h3 h4 <;> rw [beq_iff_eq] <;> fin_cases j <;> simp_all [alphabet]

/-- The boolean-mask product over an encoded sequence selects, per position, the
entry of the encoded letter when the letter is recognized and nothing (factor 1)
when it is not. -/
theorem maskProd_sequenceToI {W : ℕ} (X : Fin W → Char) (theta : Fin W → Fin 4 → ℚ) :
    maskProd (sequenceToI X) theta = ∏ i, (letterIndex (X i)).elim 1 (theta i) := by
  unfold maskProd
  refine Finset.prod_congr rfl fun i _ => ?_
  rcases hL : letterIndex (X i) with _ | j0
  · have hfalse : ∀ j, ¬ sequenceToI X i j = true := by
      intro j hj
      rw [sequenceToI_eq_letterIndex] at hj
      rw [hL] at hj
      exact Option.noConfusion hj
    simp only [Option.elim]
    calc (∏ j, if sequenceToI X i j then theta i j else 1) = ∏ j : Fin 4, 1 :=
          Finset.prod_congr rfl fun j _ => by simp [hfalse j]
      _ = 1 := Finset.prod_const_one
  · have hiff : ∀ j, sequenceToI X i j = true ↔ j0 = j := by
      intro j
      rw [sequenceToI_eq_letterIndex, hL]
      simp [eq_comm]
    calc (∏ j, if sequenceToI X i j then theta i j else 1)
        = ∏ j, if j0 = j then theta i j else 1 :=
          Finset.prod_congr rfl fun j _ => by by_cases h : j0 = j <;> simp [hiff j, h]
      _ = theta i j0 := by rw [Finset.prod_ite_eq]; simp
      _ = (some j0).elim 1 (theta i) := rfl

/-- On a fully recognized sequence the mask product is the plain product of one
selected probability per row. -/
theorem maskProd_one_hot {W : ℕ} (X : Fin W → Char) (sigma : Fin W → Fin 4)
    (hX : ∀ i, X i = alphabet (sigma i)) (theta : Fin W → Fin 4 → ℚ) :
    maskProd (sequenceToI X) theta = ∏ i, theta i (sigma i) := by
  rw [maskProd_sequenceToI]
  refine Finset.prod_congr rfl fun i _ => ?_
  rw [hX i, letterIndex_alphabet]
  rfl

/-- Left fold of addition over a list of rationals. -/
theorem foldl_add_eq (l : List ℚ) (a : ℚ) :
    l.foldl (fun s z => s + z) a = a + l.sum := by
  induction l generalizing a with
  | nil => simp
  | cons x xs ih => simp only [List.foldl_cons, List.sum_cons, ih]; ring

/-- The nested accumulation loop of `M` totals all Z values. -/
theorem foldl_foldl_add_eq (Z : List (List ℚ)) (a : ℚ) :
    Z.foldl (fun acc Zi => Zi.foldl (fun s z => s + z) acc) a
      = a + (Z.map List.sum).sum := by
  induction Z generalizing a with
  | nil => simp
  | cons x xs ih => rw [List.foldl_cons, foldl_add_eq, ih, List.map_cons, List.sum_cons]; ring

/-- Multiplying by the diagonal matrix of reciprocal row sums divides each row
by its own row sum. -/
theorem diag_dot_row {n : ℕ} (caug : Fin n → Fin 4 → ℚ) (i : Fin n) (j : Fin 4) :
    (∑ k, (if i = k then 1 / (∑ m, caug k m) else 0) * caug k j)
      = caug i j / (∑ m, caug i m) := by
  rw [Finset.sum_eq_single i]
  · rw [if_pos rfl, one_div_mul_eq_div]
  · intro k _ hk
    rw [if_neg (Ne.symm hk), zero_mul]
  · intro h
    exact absurd (Finset.mem_univ i) h

/-- The denominator of the responsibility is positive for likelihoods that are
both positive and a mixture weight in the unit interval. -/
theorem Z0_I_den_pos {W : ℕ} (I : Fin W → Fin 4 → Bool)
    (tm bgm : Fin W → Fin 4 → ℚ) (l : ℚ)
    (ha : 0 < pI_motif I tm) (hb : 0 < pI_background I bgm)
    (h0 : 0 ≤ l) (h1 : l ≤ 1) :
    0 < pI_motif I tm * l + pI_background I bgm * (1 - l) := by
  rcases lt_or_eq_of_le h0 with hpos | hzero
  · have := mul_pos ha hpos
    nlinarith [mul_nonneg hb.le (by linarith : (0:ℚ) ≤ 1 - l)]
  · rw [← hzero]
    nlinarith

/-- Numpy makes true count as 1 and false as 0, both nonnegative. -/
theorem indicatorRat_nonneg (b : Bool) : 0 ≤ indicatorRat b := by
  unfold indicatorRat; split <;> norm_num

/-- Each background accumulator entry keeps at least the fraction 3/20 of its
previous value across one online step (the new contribution is nonnegative as
long as the responsibility is at most 1). -/
theorem step_s2_2_lower {W : ℕ} (st : EMState W) (y : Fin W → Char)
    (hZ : Z0_I (sequenceToI y) st.theta_motif st.theta_background_matrix st.lambda_motif ≤ 1)
    (i : Fin W) (j : Fin 4) :
    3/20 * st.s2_2 i j ≤ (Online_EM_step st y).s2_2 i j := by
  simp only [Online_EM_step]
  nlinarith [mul_nonneg
    (by linarith :
      (0:ℚ) ≤ 1 - Z0_I (sequenceToI y) st.theta_motif st.theta_background_matrix st.lambda_motif)
    (indicatorRat_nonneg (sequenceToI y i j))]

/-- The total of the background accumulator stays positive across one online
step. -/
theorem step_s2_2_total_pos {W : ℕ} (st : EMState W) (y : Fin W → Char)
    (hZ : Z0_I (sequenceToI y) st.theta_motif st.theta_background_matrix st.lambda_motif ≤ 1)
    (hpos : 0 < ∑ i, ∑ j, st.s2_2 i j) :
    0 < ∑ j, ∑ i, (Online_EM_step st y).s2_2 i j := by
  calc (0:ℚ) < 3/20 * (∑ i, ∑ j, st.s2_2 i j) := by positivity
    _ = ∑ j, ∑ i, 3/20 * st.s2_2 i j := by
        rw [Finset.sum_comm]
        simp [Finset.mul_sum]
    _ ≤ ∑ j, ∑ i, (Online_EM_step st y).s2_2 i j := by
        refine Finset.sum_le_sum fun j _ => Finset.sum_le_sum fun i _ => ?_
        exact step_s2_2_lower st y hZ i j

end OnlineMEME

namespace OnlineMEME

/-! ## Claim theorems -/

/-- C1 (counterexample): the online loop does not compute the responsibility
from the raw accumulators s1_1, s1_2, s2_2.  From the second sequence on, the
background model it uses is the matrix rebuilt from the normalized column sums
of s2_2, not s2_2 itself: on the two-sequence input [A, A] starting from the
motif guess tm0, uniform background bg0 and weight 1/2, the final mixture
weight differs from the one the claim's reading produces. -/
theorem onlineEM_responsibility_not_from_s2_2 :
    (Online_EM [seqA, seqA] tm0 bg0 (1/2)).2.2
      ≠ (Online_EM_claimed [seqA, seqA] tm0 bg0 (1/2)).2.2 := by
  simp [Online_EM, Online_EM_claimed, Online_EM_step, Online_EM_step_claimed, Online_EM_init,
    Z0_I, pI_motif, pI_background, maskProd,
    sequenceToI, seqA, tm0, bg0, alphabet, indicatorRat,
    Fin.prod_univ_four, Fin.prod_univ_one, Fin.sum_univ_four, Fin.sum_univ_one]
  norm_num

/-- C1 (amended): one iteration of the online estimator computes the
instantaneous responsibility Z from the current usable parameters — which
equal s1_1 and s1_2 for the weight and the motif model, while the background
model is the matrix rebuilt from s2_2, not s2_2 itself — forms the
one-sequence estimates ds1_1 = Z, ds1_2 = Z·I, ds2_2 = (1−Z)·I, and replaces
each accumulator s by s + step·(ds − s) with the same fixed step size 0.85 for
all three; afterwards the usable weight and motif parameters again equal s1_1
and s1_2. -/
theorem onlineEM_step_update_rule {W : ℕ} (st : EMState W) (y : Fin W → Char)
    (h1 : st.lambda_motif = st.s1_1) (h2 : st.theta_motif = st.s1_2) :
    (Online_EM_step st y).s1_1
        = st.s1_1 + 17/20 * (Z0_I (sequenceToI y) st.s1_2 st.theta_background_matrix st.s1_1
            - st.s1_1) ∧
    (∀ i j, (Online_EM_step st y).s1_2 i j
        = st.s1_2 i j + 17/20 * (Z0_I (sequenceToI y) st.s1_2 st.theta_background_matrix st.s1_1
            * indicatorRat (sequenceToI y i j) - st.s1_2 i j)) ∧
    (∀ i j, (Online_EM_step st y).s2_2 i j
        = st.s2_2 i j + 17/20 * ((1 - Z0_I (sequenceToI y) st.s1_2 st.theta_background_matrix st.s1_1)
            * indicatorRat (sequenceToI y i j) - st.s2_2 i j)) ∧
    (Online_EM_step st y).lambda_motif = (Online_EM_step st y).s1_1 ∧
    (Online_EM_step st y).theta_motif = (Online_EM_step st y).s1_2 := by
  refine ⟨?_, fun i j => ?_, fun i j => ?_, rfl, rfl⟩ <;>
    simp [Online_EM_step, h1, h2]

/-- C1 (witness): the amended update rule instantiated at the concrete starting
state st0 and the sequence A. -/
theorem onlineEM_step_update_rule_witness :
    st0.lambda_motif = st0.s1_1 ∧ st0.theta_motif = st0.s1_2 ∧
    ((Online_EM_step st0 seqA).s1_1
        = st0.s1_1 + 17/20 * (Z0_I (sequenceToI seqA) st0.s1_2 st0.theta_background_matrix st0.s1_1
            - st0.s1_1) ∧
    (∀ i j, (Online_EM_step st0 seqA).s1_2 i j
        = st0.s1_2 i j + 17/20 * (Z0_I (sequenceToI seqA) st0.s1_2 st0.theta_background_matrix st0.s1_1
            * indicatorRat (sequenceToI seqA i j) - st0.s1_2 i j)) ∧
    (∀ i j, (Online_EM_step st0 seqA).s2_2 i j
        = st0.s2_2 i j + 17/20 * ((1 - Z0_I (sequenceToI seqA) st0.s1_2 st0.theta_background_matrix st0.s1_1)
            * indicatorRat (sequenceToI seqA i j) - st0.s2_2 i j)) ∧
    (Online_EM_step st0 seqA).lambda_motif = (Online_EM_step st0 seqA).s1_1 ∧
    (Online_EM_step st0 seqA).theta_motif = (Online_EM_step st0 seqA).s1_2) :=
  ⟨rfl, rfl, onlineEM_step_update_rule st0 seqA rfl rfl⟩

/-- C2: after each accumulator update the estimator re-derives the usable
parameters as lambda_motif = s1_1, theta_motif = s1_2 with no row
normalization, and a background matrix whose every entry in column j is the
j-th column sum of s2_2 divided by the total of s2_2, so all W rows are
identical and (when the post-update total is positive, which holds whenever
the pre-update total is positive and the responsibility is at most 1) each row
sums to 1. -/
theorem onlineEM_step_rederives_parameters {W : ℕ} (st : EMState W) (y : Fin W → Char)
    (hZ : Z0_I (sequenceToI y) st.theta_motif st.theta_background_matrix st.lambda_motif ≤ 1)
    (hpos : 0 < ∑ i, ∑ j, st.s2_2 i j) :
    (Online_EM_step st y).lambda_motif = (Online_EM_step st y).s1_1 ∧
    (Online_EM_step st y).theta_motif = (Online_EM_step st y).s1_2 ∧
    (∀ i j, (Online_EM_step st y).theta_background_matrix i j
        = (∑ k, (Online_EM_step st y).s2_2 k j)
            / (∑ m, ∑ k, (Online_EM_step st y).s2_2 k m)) ∧
    (∀ i1 i2 j, (Online_EM_step st y).theta_background_matrix i1 j
        = (Online_EM_step st y).theta_background_matrix i2 j) ∧
    (∀ i, ∑ j, (Online_EM_step st y).theta_background_matrix i j = 1) := by
  have hT := step_s2_2_total_pos st y hZ hpos
  refine ⟨rfl, rfl, fun i j => rfl, fun i1 i2 j => rfl, fun i => ?_⟩
  calc ∑ j, (Online_EM_step st y).theta_background_matrix i j
      = ∑ j, (∑ k, (Online_EM_step st y).s2_2 k j)
          / (∑ m, ∑ k, (Online_EM_step st y).s2_2 k m) := rfl
    _ = (∑ j, ∑ k, (Online_EM_step st y).s2_2 k j)
          / (∑ m, ∑ k, (Online_EM_step st y).s2_2 k m) := (Finset.sum_div _ _ _).symm
    _ = 1 := div_self (ne_of_gt hT)

/-- C2 (witness): the re-derivation property instantiated at the concrete
starting state st0 and the sequence A, where the responsibility is 2/3 and the
background total is 1. -/
theorem onlineEM_step_rederives_parameters_witness :
    Z0_I (sequenceToI seqA) st0.theta_motif st0.theta_background_matrix st0.lambda_motif ≤ 1 ∧
    (0:ℚ) < (∑ i, ∑ j, st0.s2_2 i j) ∧
    ((Online_EM_step st0 seqA).lambda_motif = (Online_EM_step st0 seqA).s1_1 ∧
    (Online_EM_step st0 seqA).theta_motif = (Online_EM_step st0 seqA).s1_2 ∧
    (∀ i j, (Online_EM_step st0 seqA).theta_background_matrix i j
        = (∑ k, (Online_EM_step st0 seqA).s2_2 k j)
            / (∑ m, ∑ k, (Online_EM_step st0 seqA).s2_2 k m)) ∧
    (∀ i1 i2 j, (Online_EM_step st0 seqA).theta_background_matrix i1 j
        = (Online_EM_step st0 seqA).theta_background_matrix i2 j) ∧
    (∀ i, ∑ j, (Online_EM_step st0 seqA).theta_background_matrix i j = 1)) := by
  have hZ : Z0_I (sequenceToI seqA) st0.theta_motif st0.theta_background_matrix st0.lambda_motif ≤ 1 := by
    simp [st0, Online_EM_init, Z0_I, pI_motif, pI_background, maskProd, sequenceToI, seqA,
      tm0, bg0, alphabet, Fin.prod_univ_four, Fin.prod_univ_one]
    norm_num
  have hpos : (0:ℚ) < (∑ i, ∑ j, st0.s2_2 i j) := by
    simp [st0, Online_EM_init, bg0, Fin.sum_univ_four, Fin.sum_univ_one]
    norm_num
  exact ⟨hZ, hpos, onlineEM_step_rederives_parameters st0 seqA hZ hpos⟩

end OnlineMEME

namespace OnlineMEME

/-- C3: on a fully recognized sequence (one-hot indicator matrix), the
responsibility computed by Z0_I equals a_raw·λ / (a_raw·λ + b_raw·(1−λ)),
where a_raw is the product over all W positions of the motif probability of
the observed letter selected through the indicator matrix, and b_raw is the
same product over the background matrix. -/
theorem Z0_I_bayes_product_formula {W : ℕ} (X : Fin W → Char) (sigma : Fin W → Fin 4)
    (hX : ∀ i, X i = alphabet (sigma i))
    (tm bgm : Fin W → Fin 4 → ℚ) (l : ℚ)
    (hden : (∏ i, tm i (sigma i)) * l + (∏ i, bgm i (sigma i)) * (1 - l) ≠ 0) :
    Z0_I (sequenceToI X) tm bgm l
      = (∏ i, tm i (sigma i)) * l
          / ((∏ i, tm i (sigma i)) * l + (∏ i, bgm i (sigma i)) * (1 - l)) ∧
    pI_motif (sequenceToI X) tm = ∏ i, tm i (sigma i) ∧
    pI_background (sequenceToI X) bgm = ∏ i, bgm i (sigma i) := by
  have hm : pI_motif (sequenceToI X) tm = ∏ i, tm i (sigma i) :=
    maskProd_one_hot X sigma hX tm
  have hb : pI_background (sequenceToI X) bgm = ∏ i, bgm i (sigma i) :=
    maskProd_one_hot X sigma hX bgm
  exact ⟨by unfold Z0_I; rw [hm, hb], hm, hb⟩

/-- C3 (witness): the Bayes formula instantiated on the sequence A against the
motif guess tm0 and uniform background bg0 with mixture weight 1/2, where the
denominator is 3/8. -/
theorem Z0_I_bayes_product_formula_witness :
    (∀ i, seqA i = alphabet ((fun _ => 0) i)) ∧
    ((∏ i : Fin 1, tm0 i 0) * (1/2) + (∏ i : Fin 1, bg0 i 0) * (1 - 1/2) ≠ 0) ∧
    (Z0_I (sequenceToI seqA) tm0 bg0 (1/2)
      = (∏ i : Fin 1, tm0 i 0) * (1/2)
          / ((∏ i : Fin 1, tm0 i 0) * (1/2) + (∏ i : Fin 1, bg0 i 0) * (1 - 1/2)) ∧
     pI_motif (sequenceToI seqA) tm0 = ∏ i : Fin 1, tm0 i 0 ∧
     pI_background (sequenceToI seqA) bg0 = ∏ i : Fin 1, bg0 i 0) :=
  ⟨fun _ => rfl, by norm_num [tm0, bg0, Fin.prod_univ_one],
   Z0_I_bayes_product_formula seqA (fun _ => 0) (fun _ => rfl) tm0 bg0 (1/2)
     (by norm_num [tm0, bg0, Fin.prod_univ_one])⟩

/-- C4 (counterexample): after one online update step from the motif guess tm0,
uniform background bg0 and weight 1/2 fed the single sequence A, the unique
row of the returned motif PWM sums to 43/60, not 1 — theta_motif is the
accumulator s1_2 taken with no row normalization. -/
theorem onlineEM_motif_row_sum_not_one :
    ∑ j, (Online_EM [seqA] tm0 bg0 (1/2)).1 0 j ≠ 1 := by
  simp [Online_EM, Online_EM_step, Online_EM_init, Z0_I, pI_motif, pI_background, maskProd,
    sequenceToI, seqA, tm0, bg0, alphabet, indicatorRat,
    Fin.prod_univ_four, Fin.prod_univ_one, Fin.sum_univ_four, Fin.sum_univ_one]
  norm_num

/-- C4 (amended): after every online update step, every row of the rebuilt
background matrix sums to 1 and lambda_motif lies in [0,1], provided the
responsibility of the consumed sequence lies in [0,1], the previous s1_1 lies
in [0,1], and the previous background accumulator has positive total; rows of
the returned motif PWM are not guaranteed to sum to 1 (it is s1_2
unnormalized). -/
theorem onlineEM_step_background_and_lambda_invariants {W : ℕ} (st : EMState W)
    (y : Fin W → Char)
    (hs0 : 0 ≤ st.s1_1) (hs1 : st.s1_1 ≤ 1)
    (hZ0 : 0 ≤ Z0_I (sequenceToI y) st.theta_motif st.theta_background_matrix st.lambda_motif)
    (hZ1 : Z0_I (sequenceToI y) st.theta_motif st.theta_background_matrix st.lambda_motif ≤ 1)
    (hpos : 0 < ∑ i, ∑ j, st.s2_2 i j) :
    (0 ≤ (Online_EM_step st y).lambda_motif ∧ (Online_EM_step st y).lambda_motif ≤ 1) ∧
    (∀ i, ∑ j, (Online_EM_step st y).theta_background_matrix i j = 1) := by
  have hT := step_s2_2_total_pos st y hZ1 hpos
  refine ⟨⟨?_, ?_⟩, fun i => ?_⟩
  · show 0 ≤ st.s1_1 + 17/20 * (Z0_I (sequenceToI y) st.theta_motif
      st.theta_background_matrix st.lambda_motif - st.s1_1)
    nlinarith
  · show st.s1_1 + 17/20 * (Z0_I (sequenceToI y) st.theta_motif
      st.theta_background_matrix st.lambda_motif - st.s1_1) ≤ 1
    nlinarith
  · calc ∑ j, (Online_EM_step st y).theta_background_matrix i j
        = ∑ j, (∑ k, (Online_EM_step st y).s2_2 k j)
            / (∑ m, ∑ k, (Online_EM_step st y).s2_2 k m) := rfl
      _ = (∑ j, ∑ k, (Online_EM_step st y).s2_2 k j)
            / (∑ m, ∑ k, (Online_EM_step st y).s2_2 k m) := (Finset.sum_div _ _ _).symm
      _ = 1 := div_self (ne_of_gt hT)

/-- C4 (witness): the amended invariants instantiated at the concrete starting
state st0 and the sequence A. -/
theorem onlineEM_step_background_and_lambda_invariants_witness :
    (0:ℚ) ≤ st0.s1_1 ∧ st0.s1_1 ≤ 1 ∧
    0 ≤ Z0_I (sequenceToI seqA) st0.theta_motif st0.theta_background_matrix st0.lambda_motif ∧
    Z0_I (sequenceToI seqA) st0.theta_motif st0.theta_background_matrix st0.lambda_motif ≤ 1 ∧
    (0:ℚ) < (∑ i, ∑ j, st0.s2_2 i j) ∧
    ((0 ≤ (Online_EM_step st0 seqA).lambda_motif ∧
      (Online_EM_step st0 seqA).lambda_motif ≤ 1) ∧
     (∀ i, ∑ j, (Online_EM_step st0 seqA).theta_background_matrix i j = 1)) := by
  have hZval : Z0_I (sequenceToI seqA) st0.theta_motif st0.theta_background_matrix
      st0.lambda_motif = 2/3 := by
    simp [st0, Online_EM_init, Z0_I, pI_motif, pI_background, maskProd, sequenceToI, seqA,
      tm0, bg0, alphabet, Fin.prod_univ_four, Fin.prod_univ_one]
    norm_num
  have hs0 : (0:ℚ) ≤ st0.s1_1 := by norm_num [st0, Online_EM_init]
  have hs1 : st0.s1_1 ≤ 1 := by norm_num [st0, Online_EM_init]
  have hZ0 : 0 ≤ Z0_I (sequenceToI seqA) st0.theta_motif st0.theta_background_matrix
      st0.lambda_motif := by rw [hZval]; norm_num
  have hZ1 : Z0_I (sequenceToI seqA) st0.theta_motif st0.theta_background_matrix
      st0.lambda_motif ≤ 1 := by rw [hZval]; norm_num
  have hpos : (0:ℚ) < (∑ i, ∑ j, st0.s2_2 i j) := by
    simp [st0, Online_EM_init, bg0, Fin.sum_univ_four, Fin.sum_univ_one]
    norm_num
  exact ⟨hs0, hs1, hZ0, hZ1, hpos,
    onlineEM_step_background_and_lambda_invariants st0 seqA hs0 hs1 hZ0 hZ1 hpos⟩

/-- C5: on an empty sequence collection the online estimator performs no update
and returns exactly the initial guess (theta_motif, theta_background_matrix,
lambda_motif). -/
theorem onlineEM_empty_input_identity {W : ℕ} (tm bg : Fin W → Fin 4 → ℚ) (l : ℚ) :
    Online_EM [] tm bg l = (tm, bg, l) := rfl

end OnlineMEME

namespace OnlineMEME

/-- C6 (code evaluated at the failing input): against the PWM tmDeg, which
assigns probability 0 to the letter A, used as both motif and background
model, the sequence A has both component likelihoods equal to 0, so the
denominator a + b of `Z0 = a/(a+b)` is exactly 0 — `Z0_I` reaches this
division with no fallback branch of any kind; the claimed defined, documented
fallback does not exist in the code. -/
theorem Z0_I_degenerate_denominator_zero :
    pI_motif (sequenceToI seqA) tmDeg = 0 ∧
    pI_background (sequenceToI seqA) tmDeg = 0 ∧
    pI_motif (sequenceToI seqA) tmDeg * (1/2)
      + pI_background (sequenceToI seqA) tmDeg * (1 - 1/2) = 0 := by
  refine ⟨?_, ?_, ?_⟩ <;>
    simp [pI_motif, pI_background, maskProd, sequenceToI, seqA, tmDeg, alphabet,
      Fin.prod_univ_four, Fin.prod_univ_one]

/-- C7 (counterexample): the one-position sequence Z is outside the alphabet
and its indicator row has no true entries, yet the downstream likelihoods are
not zero: the boolean-mask product simply selects nothing at that position, so
both likelihoods evaluate to 1 here. -/
theorem pI_unrecognized_symbol_not_zero :
    (∀ j, sequenceToI seqZ 0 j = false) ∧
    pI_motif (sequenceToI seqZ) tm0 = 1 ∧ pI_motif (sequenceToI seqZ) tm0 ≠ 0 ∧
    pI_background (sequenceToI seqZ) bg0 = 1 ∧ pI_background (sequenceToI seqZ) bg0 ≠ 0 := by
  refine ⟨fun j => ?_, ?_, ?_, ?_, ?_⟩
  · fin_cases j <;> rfl
  all_goals
    simp [pI_motif, pI_background, maskProd, sequenceToI, seqZ, tm0, bg0, alphabet,
      Fin.prod_univ_four, Fin.prod_univ_one]

/-- C7 (amended): a symbol outside {A, C, G, T} produces an indicator-matrix
row with no true entries (row i has a true entry at column j exactly when
letterIndex recognizes the symbol as letter j), and the downstream likelihoods
skip such positions rather than becoming zero: each likelihood is the product,
over the positions whose symbol is recognized, of the selected probability. -/
theorem sequenceToI_unrecognized_skips_positions {W : ℕ} (X : Fin W → Char)
    (tm bgm : Fin W → Fin 4 → ℚ) :
    (∀ i j, sequenceToI X i j = true ↔ letterIndex (X i) = some j) ∧
    pI_motif (sequenceToI X) tm = ∏ i, (letterIndex (X i)).elim 1 (tm i) ∧
    pI_background (sequenceToI X) bgm = ∏ i, (letterIndex (X i)).elim 1 (bgm i) :=
  ⟨fun i j => sequenceToI_eq_letterIndex X i j,
   maskProd_sequenceToI X tm, maskProd_sequenceToI X bgm⟩

/-- C8: the batch M-step returns lambda_motif equal to the total of all Z
values divided by n, and — stacking c0 above c and dividing each row of the
stacked matrix by its own row sum — returns rows 1..W of the result as the new
motif PWM and row 0, replicated across all W rows, as the new background
matrix. -/
theorem M_closed_form {W : ℕ} (Z : List (List ℚ)) (n : ℕ) (c0 : Fin 4 → ℚ)
    (c : Fin W → Fin 4 → ℚ) :
    (M Z n c0 c).1 = (Z.map List.sum).sum / (n : ℚ) ∧
    (∀ i j, (M Z n c0 c).2.1 i j = c i j / ∑ m, c i m) ∧
    (∀ i j, (M Z n c0 c).2.2 i j = c0 j / ∑ m, c0 m) := by
  unfold M augmented
  refine ⟨?_, fun i j => ?_, fun i j => ?_⟩
  · simp [foldl_foldl_add_eq]
  · simp [diag_dot_row, div_eq_inv_mul]
  · simp [diag_dot_row, div_eq_inv_mul]

/-- C9: for positive likelihoods under both components, the responsibility
computed by Z0_I lies in [0,1] for every mixture weight in [0,1] and is
strictly increasing in the mixture weight on [0,1]. -/
theorem Z0_I_unit_interval_and_monotone {W : ℕ} (I : Fin W → Fin 4 → Bool)
    (tm bgm : Fin W → Fin 4 → ℚ)
    (ha : 0 < pI_motif I tm) (hb : 0 < pI_background I bgm) :
    (∀ l, 0 ≤ l → l ≤ 1 → 0 ≤ Z0_I I tm bgm l ∧ Z0_I I tm bgm l ≤ 1) ∧
    (∀ l1 l2, 0 ≤ l1 → l2 ≤ 1 → l1 < l2 → Z0_I I tm bgm l1 < Z0_I I tm bgm l2) := by
  constructor
  · intro l h0 h1
    have hd := Z0_I_den_pos I tm bgm l ha hb h0 h1
    unfold Z0_I
    constructor
    · exact div_nonneg (mul_nonneg ha.le h0) hd.le
    · rw [div_le_one hd]
      nlinarith [mul_nonneg hb.le (by linarith : (0:ℚ) ≤ 1 - l)]
  · intro l1 l2 h1 h2 hlt
    have hd1 := Z0_I_den_pos I tm bgm l1 ha hb h1 (le_of_lt (lt_of_lt_of_le hlt h2))
    have hd2 := Z0_I_den_pos I tm bgm l2 ha hb (le_of_lt (lt_of_le_of_lt h1 hlt)) h2
    unfold Z0_I
    rw [div_lt_div_iff₀ hd1 hd2]
    nlinarith [mul_pos (mul_pos ha hb) (sub_pos.mpr hlt)]

/-- C9 (witness): instantiated on the encoded sequence A with the motif guess
tm0 (likelihood 1/2) and uniform background bg0 (likelihood 1/4). -/
theorem Z0_I_unit_interval_and_monotone_witness :
    (0:ℚ) < pI_motif (sequenceToI seqA) tm0 ∧
    (0:ℚ) < pI_background (sequenceToI seqA) bg0 ∧
    ((∀ l, 0 ≤ l → l ≤ 1 → 0 ≤ Z0_I (sequenceToI seqA) tm0 bg0 l ∧
        Z0_I (sequenceToI seqA) tm0 bg0 l ≤ 1) ∧
     (∀ l1 l2, 0 ≤ l1 → l2 ≤ 1 → l1 < l2 →
        Z0_I (sequenceToI seqA) tm0 bg0 l1 < Z0_I (sequenceToI seqA) tm0 bg0 l2)) := by
  have ha : (0:ℚ) < pI_motif (sequenceToI seqA) tm0 := by
    simp [pI_motif, maskProd, sequenceToI, seqA, tm0, alphabet,
      Fin.prod_univ_four, Fin.prod_univ_one]
  have hb : (0:ℚ) < pI_background (sequenceToI seqA) bg0 := by
    simp [pI_background, maskProd, sequenceToI, seqA, bg0, alphabet,
      Fin.prod_univ_four, Fin.prod_univ_one]
  exact ⟨ha, hb, Z0_I_unit_interval_and_monotone (sequenceToI seqA) tm0 bg0 ha hb⟩

/-- C10: the online estimator is a deterministic function of the sequence
collection (in order) and the initial parameters: identical inputs give
identical outputs; no randomness enters the streaming path. -/
theorem onlineEM_deterministic {W : ℕ} (Y1 Y2 : List (Fin W → Char))
    (tm1 tm2 bg1 bg2 : Fin W → Fin 4 → ℚ) (l1 l2 : ℚ)
    (hY : Y1 = Y2) (htm : tm1 = tm2) (hbg : bg1 = bg2) (hl : l1 = l2) :
    Online_EM Y1 tm1 bg1 l1 = Online_EM Y2 tm2 bg2 l2 := by
  subst hY htm hbg hl
  rfl

/-- C10 (witness): two runs on the one-sequence collection [A] from the
concrete initial parameters coincide. -/
theorem onlineEM_deterministic_witness :
    [seqA] = [seqA] ∧ tm0 = tm0 ∧ bg0 = bg0 ∧ (1/2 : ℚ) = 1/2 ∧
    Online_EM [seqA] tm0 bg0 (1/2) = Online_EM [seqA] tm0 bg0 (1/2) :=
  ⟨rfl, rfl, rfl, rfl,
   onlineEM_deterministic [seqA] [seqA] tm0 tm0 bg0 bg0 (1/2) (1/2) rfl rfl rfl rfl⟩

end OnlineMEME
